import Mathlib

/-!
Verification of the EdgeSimPy network resource and flow-scheduling engine
against its natural-language specification.

Bandwidth quantities are modelled as rationals.  Components whose Python
source is available (user.py, point_of_interest.py, the point-of-interest
mobility model, the hexagonal-mesh topology builder) are embedded from that
source; the flow-scheduling algorithms and the topology path-delay query,
whose source files are not part of the provided sources, are modelled from
the specification text and are marked as such in their doc comments.
-/

namespace EdgeSimPy

/-! ### Flow-scheduling algorithms (spec-modelled) -/

/-- Modelled from the spec: `max_min_fairness` progressive water-filling,
from flow_scheduling (source file not provided).  Among flows not yet
finalized, compute `fair_share = remaining_capacity / remaining_count`; any
flow whose demand is at most the fair share is finalized at its demand and
its demand is subtracted from the remaining capacity; repeat until no such
flow remains in the current pass; all remaining flows receive the final
fair share.  The fuel argument bounds the number of passes (at most the
number of flows, as the spec states). -/
def mmfAux : Nat → ℚ → List (Nat × ℚ) → List (Nat × ℚ)
  | 0, c, pending => pending.map (fun p => (p.1, c / pending.length))
  | fuel + 1, c, pending =>
    let fair : ℚ := c / pending.length
    let sat := pending.filter (fun p => p.2 ≤ fair)
    if sat.isEmpty then
      pending.map (fun p => (p.1, fair))
    else
      let unsat := pending.filter (fun p => ¬ p.2 ≤ fair)
      sat ++ mmfAux fuel (c - (sat.map Prod.snd).sum) unsat

/-- Modelled from the spec: entry point of the water-filling algorithm;
terminates in at most `N` passes, where `N` is the number of flows. -/
def max_min_fairness (capacity : ℚ) (demands : List (Nat × ℚ)) : List (Nat × ℚ) :=
  mmfAux demands.length capacity demands

/-- Modelled from the spec: `equal_share` grants `C / N` to each of the `N`
active flows irrespective of individual demand; excess over a small demand
is not redistributed. -/
def equal_share (capacity : ℚ) (demands : List (Nat × ℚ)) : List (Nat × ℚ) :=
  demands.map (fun p => (p.1, capacity / demands.length))

/-- Sum of the bandwidth values held in a flow table (second components). -/
def allocSum (l : List (Nat × ℚ)) : ℚ :=
  (l.map Prod.snd).sum

lemma allocSum_nil : allocSum [] = 0 := rfl

lemma allocSum_cons (p : Nat × ℚ) (l : List (Nat × ℚ)) :
    allocSum (p :: l) = p.2 + allocSum l := by
  simp [allocSum]

lemma allocSum_append (a b : List (Nat × ℚ)) :
    allocSum (a ++ b) = allocSum a + allocSum b := by
  simp [allocSum]

lemma allocSum_map_const (l : List (Nat × ℚ)) (q : ℚ) :
    allocSum (l.map (fun p => (p.1, q))) = l.length * q := by
  induction l with
  | nil => simp [allocSum]
  | cons a t ih =>
    simp only [List.map_cons, allocSum_cons, ih, List.length_cons]
    push_cast
    ring

lemma allocSum_le_of_forall_le (l : List (Nat × ℚ)) (q : ℚ)
    (h : ∀ p ∈ l, p.2 ≤ q) : allocSum l ≤ l.length * q := by
  induction l with
  | nil => simp [allocSum]
  | cons a t ih =>
    have ha := h a (List.mem_cons_self a t)
    have ht := ih (fun p hp => h p (List.mem_cons_of_mem a hp))
    rw [allocSum_cons, List.length_cons]
    push_cast
    nlinarith

lemma le_allocSum_of_forall_le (l : List (Nat × ℚ)) (q : ℚ)
    (h : ∀ p ∈ l, q ≤ p.2) : l.length * q ≤ allocSum l := by
  induction l with
  | nil => simp [allocSum]
  | cons a t ih =>
    have ha := h a (List.mem_cons_self a t)
    have ht := ih (fun p hp => h p (List.mem_cons_of_mem a hp))
    rw [allocSum_cons, List.length_cons]
    push_cast
    nlinarith

lemma allocSum_filter_partition (l : List (Nat × ℚ)) (q : ℚ) :
    allocSum (l.filter (fun p => p.2 ≤ q))
      + allocSum (l.filter (fun p => ¬ p.2 ≤ q)) = allocSum l := by
  induction l with
  | nil => simp [allocSum]
  | cons a t ih =>
    by_cases h : a.2 ≤ q
    · rw [List.filter_cons_of_pos (by simp [h]), List.filter_cons_of_neg (by simp [h]),
        allocSum_cons, allocSum_cons]
      linarith
    · rw [List.filter_cons_of_neg (by simp [h]), List.filter_cons_of_pos (by simp [h]),
        allocSum_cons, allocSum_cons]
      linarith

lemma length_filter_partition (l : List (Nat × ℚ)) (q : ℚ) :
    (l.filter (fun p => p.2 ≤ q)).length
      + (l.filter (fun p => ¬ p.2 ≤ q)).length = l.length := by
  induction l with
  | nil => simp
  | cons a t ih =>
    by_cases h : a.2 ≤ q
    · rw [List.filter_cons_of_pos (by simp [h]), List.filter_cons_of_neg (by simp [h]),
        List.length_cons, List.length_cons]
      omega
    · rw [List.filter_cons_of_neg (by simp [h]), List.filter_cons_of_pos (by simp [h]),
        List.length_cons, List.length_cons]
      omega

/-- Core water-filling bound: with nonnegative capacity and demands and
enough fuel, the allocations of `mmfAux` sum to at most the capacity, and
reach it only when the pending demands sum to at least the capacity. -/
lemma mmfAux_capacity_bound (fuel : Nat) :
    ∀ (c : ℚ) (pending : List (Nat × ℚ)), 0 ≤ c →
      (∀ p ∈ pending, 0 ≤ p.2) → pending.length ≤ fuel →
      allocSum (mmfAux fuel c pending) ≤ c ∧
        (allocSum (mmfAux fuel c pending) = c → c ≤ allocSum pending) := by
  induction fuel with
  | zero =>
    intro c pending hc _ hlen
    have hnil : pending = [] := List.length_eq_zero.mp (Nat.le_zero.mp hlen)
    subst hnil
    constructor
    · simpa [mmfAux, allocSum] using hc
    · intro h
      simp only [mmfAux, List.map_nil, allocSum_nil] at h
      simp [allocSum, ← h]
  | succ fuel ih =>
    intro c pending hc hd hlen
    set n := pending.length with hn
    set fair : ℚ := c / n with hfair
    set sat := pending.filter (fun p => p.2 ≤ fair) with hsat
    set unsat := pending.filter (fun p => ¬ p.2 ≤ fair) with hunsat
    have hfair_nonneg : 0 ≤ fair := div_nonneg hc (Nat.cast_nonneg n)
    by_cases hempty : sat.isEmpty
    · -- no flow is satisfied in this pass: all pending flows get the fair share
      have hresult : mmfAux (fuel + 1) c pending
          = pending.map (fun p => (p.1, fair)) := by
        simp only [mmfAux, ← hfair, ← hsat, hempty, if_true]
      have hsat_nil : sat = [] := List.isEmpty_iff.mp hempty
      have hnone : ∀ p ∈ pending, fair ≤ p.2 := by
        intro p hp
        have := List.filter_eq_nil_iff.mp hsat_nil p hp
        simp only [decide_eq_true_eq] at this
        linarith [lt_of_not_le this]
      rcases List.eq_nil_or_concat pending with hpn | ⟨_, _, hpcons⟩
      · subst hpn
        constructor
        · simpa [hresult, allocSum] using hc
        · intro h
          simp only [hresult, List.map_nil, allocSum_nil] at h
          simp [allocSum, ← h]
      · have hn_pos : 0 < n := by
          rw [hn, hpcons]
          simp
        have hn_ne : (n : ℚ) ≠ 0 := by
          exact_mod_cast Nat.pos_iff_ne_zero.mp hn_pos
        have hsum : allocSum (mmfAux (fuel + 1) c pending) = c := by
          rw [hresult, allocSum_map_const, ← hn, hfair]
          field_simp
        constructor
        · rw [hsum]
        · intro _
          have := le_allocSum_of_forall_le pending fair hnone
          rw [← hn] at this
          have heq : (n : ℚ) * fair = c := by
            rw [hfair]; field_simp
          linarith
    · -- at least one flow is satisfied: it is finalized at its demand
      have hresult : mmfAux (fuel + 1) c pending
          = sat ++ mmfAux fuel (c - (sat.map Prod.snd).sum) unsat := by
        simp only [mmfAux, ← hfair, ← hsat, ← hunsat, hempty, if_false]
        exact if_neg Bool.false_ne_true
      have hsat_mem : ∀ p ∈ sat, p ∈ pending ∧ p.2 ≤ fair := by
        intro p hp
        have := List.mem_filter.mp (hsat ▸ hp)
        exact ⟨this.1, by simpa using this.2⟩
      have hunsat_mem : ∀ p ∈ unsat, p ∈ pending := by
        intro p hp
        exact (List.mem_filter.mp (hunsat ▸ hp)).1
      have hS_eq : (sat.map Prod.snd).sum = allocSum sat := rfl
      -- the satisfied demands fit inside the capacity
      have hS_le : allocSum sat ≤ c := by
        have h1 : allocSum sat ≤ sat.length * fair :=
          allocSum_le_of_forall_le sat fair (fun p hp => (hsat_mem p hp).2)
        have h2 : (sat.length : ℚ) ≤ n := by
          exact_mod_cast hsat ▸ (List.length_filter_le _ pending)
        have h3 : (sat.length : ℚ) * fair ≤ n * fair :=
          mul_le_mul_of_nonneg_right h2 hfair_nonneg
        have h4 : (n : ℚ) * fair ≤ c := by
          rcases Nat.eq_zero_or_pos n with h0 | hpos
          · simp [h0, hc]
          · have : (n : ℚ) ≠ 0 := by exact_mod_cast Nat.pos_iff_ne_zero.mp hpos
            rw [hfair]
            field_simp
        linarith
      have hc' : 0 ≤ c - allocSum sat := by linarith
      have hd' : ∀ p ∈ unsat, 0 ≤ p.2 := fun p hp => hd p (hunsat_mem p hp)
      have hlen' : unsat.length ≤ fuel := by
        have hpart := length_filter_partition pending fair
        have hsat_pos : 0 < sat.length :=
          List.length_pos.mpr (fun h => hempty (by simp [h]))
        rw [← hsat, ← hunsat] at hpart
        omega
      obtain ⟨ih1, ih2⟩ := ih (c - allocSum sat) unsat hc' hd' hlen'
      have hsplit : allocSum (mmfAux (fuel + 1) c pending)
          = allocSum sat + allocSum (mmfAux fuel (c - allocSum sat) unsat) := by
        rw [hresult, hS_eq, allocSum_append]
      have hpart := allocSum_filter_partition pending fair
      rw [← hsat, ← hunsat] at hpart
      constructor
      · rw [hsplit]; linarith
      · intro h
        rw [hsplit] at h
        have : allocSum (mmfAux fuel (c - allocSum sat) unsat)
            = c - allocSum sat := by linarith
        have := ih2 this
        linarith

/-! ### Link state and the allocate/release protocol (spec-modelled) -/

/-- State of one network link: its bandwidth capacity (constant for the
run) and the demand table of its active flows (flow id with requested
bandwidth), as described in the NetworkLink data model. -/
structure LinkState where
  capacity : ℚ
  demands : List (Nat × ℚ)

/-- One protocol call touching the link: a path allocation registers a
flow on the link, a path release unregisters it. -/
inductive LinkOp where
  | register (flowId : Nat) (demand : ℚ)
  | unregister (flowId : Nat)

/-- Modelled from the spec: `register_flow` adds the flow to the demand
table, failing with DuplicateFlowError if the flow id is already
registered; `unregister_flow` removes the flow, failing with
UnknownFlowError if it is absent (network_link source file not
provided). -/
def applyLinkOp (st : LinkState) : LinkOp → Option LinkState
  | .register i d =>
    if st.demands.any (fun p => p.1 = i) then none
    else some { st with demands := st.demands ++ [(i, d)] }
  | .unregister i =>
    if st.demands.any (fun p => p.1 = i) then
      some { st with demands := st.demands.filter (fun p => ¬ p.1 = i) }
    else none

/-- Runs a sequence of allocate/release calls on a link, propagating
failures. -/
def runLinkOps (init : LinkState) : List LinkOp → Option LinkState
  | [] => some init
  | op :: ops => (applyLinkOp init op).bind (fun st => runLinkOps st ops)

/-- Modelled from the spec: every register/unregister is immediately
followed by a re-run of the scheduling algorithm (max-min fairness, the
allocation policy the spec names for the engine), so the valid allocation
table of a link is the output of the algorithm on its current demand
table. -/
def linkAllocation (st : LinkState) : List (Nat × ℚ) :=
  max_min_fairness st.capacity st.demands

/-- Demand carried by a single protocol call is nonnegative. -/
def nonnegOp : LinkOp → Prop
  | .register _ d => 0 ≤ d
  | .unregister _ => True

lemma applyLinkOp_preserves (init st : LinkState) (op : LinkOp)
    (h : ∀ p ∈ init.demands, 0 ≤ p.2) (hop : nonnegOp op)
    (happ : applyLinkOp init op = some st) :
    st.capacity = init.capacity ∧ ∀ p ∈ st.demands, 0 ≤ p.2 := by
  cases op with
  | register i d =>
    simp only [applyLinkOp] at happ
    split at happ
    · exact Option.noConfusion happ
    · obtain rfl := Option.some.inj happ
      refine ⟨rfl, ?_⟩
      intro p hp
      rcases List.mem_append.mp hp with hp | hp
      · exact h p hp
      · obtain rfl := List.mem_singleton.mp hp
        exact hop
  | unregister i =>
    simp only [applyLinkOp] at happ
    split at happ
    · obtain rfl := Option.some.inj happ
      exact ⟨rfl, fun p hp => h p (List.mem_filter.mp hp).1⟩
    · exact Option.noConfusion happ

lemma runLinkOps_preserves (ops : List LinkOp) :
    ∀ (init st : LinkState), (∀ p ∈ init.demands, 0 ≤ p.2) →
      (∀ op ∈ ops, nonnegOp op) → runLinkOps init ops = some st →
      st.capacity = init.capacity ∧ ∀ p ∈ st.demands, 0 ≤ p.2 := by
  induction ops with
  | nil =>
    intro init st h _ hrun
    obtain rfl := Option.some.inj hrun
    exact ⟨rfl, h⟩
  | cons op ops ih =>
    intro init st h hops hrun
    simp only [runLinkOps] at hrun
    cases happ : applyLinkOp init op with
    | none => rw [happ] at hrun; exact absurd hrun (by simp)
    | some mid =>
      rw [happ] at hrun
      simp only [Option.some_bind] at hrun
      obtain ⟨hcap, hmid⟩ :=
        applyLinkOp_preserves init mid op h (hops op (List.mem_cons_self op ops)) happ
      obtain ⟨hcap2, hst⟩ :=
        ih mid st hmid (fun o ho => hops o (List.mem_cons_of_mem op ho)) hrun
      exact ⟨hcap2.trans hcap, hst⟩

/-- Claim C1: for every network link, at all times after any sequence of
path allocate or release calls starting from an idle link, the sum of the
bandwidth allocations granted to the active flows of the link is at most
the capacity of the link, and it equals the capacity only when the total
demand of the flows saturates the link (total demand at least the
capacity). -/
theorem C1_capacity_invariant (c : ℚ) (ops : List LinkOp) (st : LinkState)
    (hc : 0 ≤ c) (hops : ∀ op ∈ ops, nonnegOp op)
    (hrun : runLinkOps ⟨c, []⟩ ops = some st) :
    allocSum (linkAllocation st) ≤ st.capacity ∧
      (allocSum (linkAllocation st) = st.capacity →
        st.capacity ≤ allocSum st.demands) := by
  obtain ⟨hcap, hdem⟩ := runLinkOps_preserves ops ⟨c, []⟩ st (by simp) hops hrun
  have hc' : 0 ≤ st.capacity := by rw [hcap]; exact hc
  simpa [linkAllocation, max_min_fairness] using
    mmfAux_capacity_bound st.demands.length st.capacity st.demands hc' hdem le_rfl

/-- Witness for C1 at a concrete run: three allocations of demands 10, 40
and 80 on a link of capacity 100. -/
theorem C1_capacity_invariant_witness :
    allocSum (linkAllocation ⟨100, [(1, 10), (2, 40), (3, 80)]⟩) ≤
      (LinkState.mk 100 [(1, 10), (2, 40), (3, 80)]).capacity :=
  (C1_capacity_invariant 100
    [.register 1 10, .register 2 40, .register 3 80]
    ⟨100, [(1, 10), (2, 40), (3, 80)]⟩
    (by norm_num)
    (by intro op hop; fin_cases hop <;> norm_num [nonnegOp])
    rfl).1

/-- Claim C5: max-min fairness on a link of capacity 100 with flows
demanding 10, 40 and 80 returns allocations 10, 40 and 50, with the
water-filling passes finalizing flow 1 at demand 10 (leaving capacity 90
over two flows), then flow 2 at demand 40 (leaving capacity 50 over one
flow), and granting flow 3 the final fair share 50. -/
theorem C5_max_min_fairness_scenario :
    max_min_fairness 100 [(1, 10), (2, 40), (3, 80)] = [(1, 10), (2, 40), (3, 50)]
    ∧ mmfAux 3 100 [(1, 10), (2, 40), (3, 80)] = (1, 10) :: mmfAux 2 90 [(2, 40), (3, 80)]
    ∧ mmfAux 2 90 [(2, 40), (3, 80)] = (2, 40) :: mmfAux 1 50 [(3, 80)]
    ∧ mmfAux 1 50 [(3, 80)] = [(3, 50)] := by
  refine ⟨?_, ?_, ?_, ?_⟩ <;>
    norm_num [max_min_fairness, mmfAux, List.filter]

lemma map_snd_const (l : List (Nat × ℚ)) (q : ℚ) :
    (l.map (fun p => (p.1, q))).map Prod.snd = List.replicate l.length q := by
  induction l with
  | nil => rfl
  | cons a t ih => simp [ih, List.replicate_succ]

/-- Claim C6: equal share grants each of the N active flows exactly C / N
irrespective of the individual demands, so in particular excess over a
small demand is not redistributed: the granted values do not depend on the
demand values at all, only on their number. -/
theorem C6_equal_share (c : ℚ) (demands : List (Nat × ℚ)) :
    (∀ p ∈ equal_share c demands, p.2 = c / demands.length)
    ∧ (∀ demands2 : List (Nat × ℚ), demands2.length = demands.length →
        (equal_share c demands2).map Prod.snd
          = (equal_share c demands).map Prod.snd) := by
  constructor
  · intro p hp
    simp only [equal_share, List.mem_map] at hp
    obtain ⟨q, _, rfl⟩ := hp
    rfl
  · intro d2 hlen
    simp only [equal_share, map_snd_const, hlen]

/-- Witness for C6: flows demanding 10, 40 and 80 receive exactly the
same granted values as flows all demanding 100, on capacity 100. -/
theorem C6_equal_share_witness :
    (equal_share 100 [(1, (10 : ℚ)), (2, 40), (3, 80)]).map Prod.snd
      = (equal_share 100 [(1, (100 : ℚ)), (2, 100), (3, 100)]).map Prod.snd :=
  (C6_equal_share 100 [(1, 100), (2, 100), (3, 100)]).2
    [(1, 10), (2, 40), (3, 80)] rfl

/-! ### Path delay query (spec-modelled) -/

/-- Modelled from the spec: `path_delay` of the topology (topology source
file not provided), as used by User._compute_delay.  It sums the static
propagation delay of every link along the path, and returns plus infinity
when the path is empty while its two endpoints differ, the model
convention for an unreachable or not provisioned application. -/
def calculate_path_delay (source target : Nat) (linkDelays : List ℚ) : WithTop ℚ :=
  if linkDelays = [] ∧ source ≠ target then ⊤
  else ((linkDelays.sum : ℚ) : WithTop ℚ)

/-! ### Python dictionary keys as used by User.set_communication_path -/

/-- Keys of a Python dict as they occur in user.py.  Every key the class
writes into communication_paths is the string str(app.id); the membership
test on the release branch queries the dict with the Application object
itself.  Python compares the query against the stored keys with the
equality operator, and an Application object (whose class does not
override equality) is never equal to a str, so the two key kinds never
compare equal. -/
inductive PyKey where
  | str (s : String)
  | appRef (appId : Nat)
deriving DecidableEq

/-- Python equality between two dict keys of the kinds occurring here. -/
def pyKeyEq : PyKey → PyKey → Bool
  | .str a, .str b => a == b
  | .appRef a, .appRef b => a == b
  | _, _ => false

lemma pyKeyEq_refl (k : PyKey) : pyKeyEq k k = true := by
  cases k <;> simp [pyKeyEq]

/-- Membership test of a Python dict (the `in` operator). -/
def dictContains (d : List (PyKey × α)) (k : PyKey) : Bool :=
  d.any (fun kv => pyKeyEq kv.1 k)

/-- Read access of a Python dict, with a default for the absent case. -/
def dictGet (d : List (PyKey × α)) (k : PyKey) (dflt : α) : α :=
  match d with
  | [] => dflt
  | kv :: rest => if pyKeyEq kv.1 k then kv.2 else dictGet rest k dflt

/-- Write access of a Python dict: replaces the value of the (unique)
matching key in place when the key is present, appends the binding at the
end otherwise (Python dicts keep insertion order). -/
def dictSet (d : List (PyKey × α)) (k : PyKey) (v : α) : List (PyKey × α) :=
  match d with
  | [] => [(k, v)]
  | kv :: rest => if pyKeyEq kv.1 k then (kv.1, v) :: rest else kv :: dictSet rest k v

lemma dictGet_dictSet (d : List (PyKey × α)) (k : PyKey) (v dflt : α) :
    dictGet (dictSet d k v) k dflt = v := by
  induction d with
  | nil => simp [dictGet, dictSet, pyKeyEq_refl]
  | cons kv d ih =>
    by_cases hk : pyKeyEq kv.1 k = true
    · simp [dictGet, dictSet, hk]
    · have hkb : pyKeyEq kv.1 k = false := by simpa using hk
      simp [dictGet, dictSet, hkb, ih]

/-- Claim C4: a path-delay query on an empty path whose two endpoints
differ evaluates to plus infinity. -/
theorem C4_empty_path_delay (source target : Nat) (h : source ≠ target) :
    calculate_path_delay source target [] = ⊤ := by
  simp [calculate_path_delay, h]

/-- Witness for C4 at a concrete query: endpoints 1 and 2, empty path. -/
theorem C4_empty_path_delay_witness :
    calculate_path_delay 1 2 [] = ⊤ :=
  C4_empty_path_delay 1 2 (by decide)

/-! ### User.set_communication_path (embedded from user.py) -/

/-- Network switch as read by set_communication_path: its identity. -/
structure NetworkSwitch where
  id : Nat
deriving DecidableEq

/-- Base station as read by set_communication_path: identity plus the
network switch serving it. -/
structure BaseStation where
  id : Nat
  network_switch : NetworkSwitch
deriving DecidableEq

/-- Modelled from the spec: the allocation bookkeeping of the topology
(topology source file not provided).  An allocate call registers the flow
of the application on every link of the given communication path; we
record the (application id, communication path) registration.  A release
call unregisters the flow; we drop the matching registrations and count
the invocation, so that a run shows whether the release branch of
set_communication_path ever executes. -/
structure TopologyState where
  allocations : List (Nat × List (List Nat))
  releaseCalls : Nat
deriving DecidableEq

def allocateCommunicationPath (ts : TopologyState) (appId : Nat)
    (path : List (List Nat)) : TopologyState :=
  { ts with allocations := ts.allocations ++ [(appId, path)] }

def releaseCommunicationPath (ts : TopologyState) (appId : Nat)
    (path : List (List Nat)) : TopologyState :=
  { allocations := ts.allocations.filter (fun r => ¬ (r.1 = appId ∧ r.2 = path)),
    releaseCalls := ts.releaseCalls + 1 }

/-- The slice of the user state that set_communication_path touches. -/
structure UserCommState where
  communication_paths : List (PyKey × List (List Nat))
  topology : TopologyState
deriving DecidableEq

/-- One chain segment, as computed inside the loop of
set_communication_path (user.py lines 254 to 272): the empty path when the
origin equals the target, otherwise the switch ids of the path delivered
by the shortest-path call (nx.shortest_path with weight delay and method
dijkstra, an external library call modelled as the parameter sp). -/
def chainSegment (sp : NetworkSwitch → NetworkSwitch → List NetworkSwitch)
    (origin target : BaseStation) : List Nat :=
  if origin = target then []
  else (sp origin.network_switch target.network_switch).map NetworkSwitch.id

/-- The stored segments for a whole communication chain: one segment per
consecutive pair of base stations. -/
def chainSegments (sp : NetworkSwitch → NetworkSwitch → List NetworkSwitch) :
    List BaseStation → List (List Nat)
  | [] => []
  | a :: rest =>
    match rest with
    | [] => []
    | b :: _ => chainSegment sp a b :: chainSegments sp rest

/-- Loop body of set_communication_path: for every consecutive pair the
segment is appended to the stored dict entry and, still inside the loop
(user.py lines 274 to 276), the whole accumulated path is passed to the
allocate call of the topology. -/
def scpLoop (sp : NetworkSwitch → NetworkSwitch → List NetworkSwitch)
    (appKey : PyKey) (appId : Nat) :
    List BaseStation → UserCommState → UserCommState
  | [], st => st
  | a :: rest, st =>
    match rest with
    | [] => st
    | b :: _ =>
      let segs := dictGet st.communication_paths appKey [] ++ [chainSegment sp a b]
      let st1 : UserCommState :=
        { communication_paths := dictSet st.communication_paths appKey segs,
          topology := allocateCommunicationPath st.topology appId segs }
      scpLoop sp appKey appId rest st1

/-- Embedding of User.set_communication_path (user.py lines 227 to 281).
The release branch tests membership of the Application object in the
communication_paths dict, whose keys are all strings of the form
str(app.id); the query key is therefore PyKey.appRef while every stored
key is PyKey.str.  When the optional communication_path argument is
nonempty it is stored without any allocation; otherwise the entry is reset
to the empty list and the chain loop appends one segment per consecutive
pair of base stations, allocating the accumulated path each iteration.
The final delay recomputation only writes the delays dict and is not part
of this state slice. -/
def set_communication_path (sp : NetworkSwitch → NetworkSwitch → List NetworkSwitch)
    (appId : Nat) (userBS : BaseStation) (serviceHostBS : List BaseStation)
    (communication_path : List (List Nat)) (st : UserCommState) : UserCommState :=
  let st :=
    if dictContains st.communication_paths (.appRef appId) then
      { st with
        topology := releaseCommunicationPath st.topology appId
          (dictGet st.communication_paths (.str (toString appId)) []) }
    else st
  if communication_path.length > 0 then
    { st with
      communication_paths :=
        dictSet st.communication_paths (.str (toString appId)) communication_path }
  else
    let st : UserCommState :=
      { st with
        communication_paths := dictSet st.communication_paths (.str (toString appId)) [] }
    scpLoop sp (.str (toString appId)) appId (userBS :: serviceHostBS) st


/-- Claim C2 fails on the code: the release branch of
set_communication_path never executes, because the membership test
compares the Application object against the string keys of the dict.  At
a state where application 7 already holds the path [[10, 20]], a call that
reroutes it to the same path performs zero release calls and leaves the
old registration in place next to the new one, so bandwidth for both the
old and the new path is counted simultaneously. -/
theorem C2_release_branch_dead :
    (set_communication_path (fun a b => [a, b]) 7 ⟨1, ⟨10⟩⟩ [⟨2, ⟨20⟩⟩] []
        ⟨[(.str "7", [[10, 20]])], ⟨[(7, [[10, 20]])], 0⟩⟩).topology.releaseCalls = 0
    ∧ (set_communication_path (fun a b => [a, b]) 7 ⟨1, ⟨10⟩⟩ [⟨2, ⟨20⟩⟩] []
        ⟨[(.str "7", [[10, 20]])], ⟨[(7, [[10, 20]])], 0⟩⟩).topology.allocations
      = [(7, [[10, 20]]), (7, [[10, 20]])] := by
  decide

lemma chainSegments_length (sp : NetworkSwitch → NetworkSwitch → List NetworkSwitch) :
    ∀ chain : List BaseStation, (chainSegments sp chain).length = chain.length - 1 := by
  intro chain
  induction chain with
  | nil => rfl
  | cons a rest ih =>
    cases rest with
    | nil => rfl
    | cons b r =>
      simp only [chainSegments, List.length_cons] at ih ⊢
      omega

lemma chainSegments_get (sp : NetworkSwitch → NetworkSwitch → List NetworkSwitch) :
    ∀ (chain : List BaseStation) (i : Nat) (origin target : BaseStation),
      chain[i]? = some origin → chain[i + 1]? = some target →
      (chainSegments sp chain)[i]? = some (chainSegment sp origin target) := by
  intro chain
  induction chain with
  | nil => intro i o t ho _; simp at ho
  | cons a rest ih =>
    intro i o t ho ht
    cases rest with
    | nil =>
      exfalso
      cases i <;> simp at ht
    | cons b r =>
      cases i with
      | zero =>
        simp only [List.getElem?_cons_zero, Option.some.injEq] at ho ht
        subst ho
        simp only [List.getElem?_cons_succ, List.getElem?_cons_zero,
          Option.some.injEq] at ht
        subst ht
        simp [chainSegments]
      | succ i =>
        have ho2 : (b :: r)[i]? = some o := by simpa using ho
        have ht2 : (b :: r)[i + 1]? = some t := by simpa using ht
        simpa [chainSegments] using ih i o t ho2 ht2

lemma scpLoop_paths (sp : NetworkSwitch → NetworkSwitch → List NetworkSwitch)
    (key : PyKey) (appId : Nat) :
    ∀ (chain : List BaseStation) (st : UserCommState),
      dictGet (scpLoop sp key appId chain st).communication_paths key []
        = dictGet st.communication_paths key [] ++ chainSegments sp chain := by
  intro chain
  induction chain with
  | nil => intro st; simp [scpLoop, chainSegments]
  | cons a rest ih =>
    intro st
    cases rest with
    | nil => simp [scpLoop, chainSegments]
    | cons b r =>
      show dictGet (scpLoop sp key appId (b :: r)
          { communication_paths := dictSet st.communication_paths key
              (dictGet st.communication_paths key [] ++ [chainSegment sp a b]),
            topology := allocateCommunicationPath st.topology appId
              (dictGet st.communication_paths key [] ++ [chainSegment sp a b]) }).communication_paths
          key []
        = dictGet st.communication_paths key [] ++ chainSegments sp (a :: b :: r)
      rw [ih]
      simp [dictGet_dictSet, chainSegments, List.append_assoc]

/-- Claim C3: after set_communication_path recomputes the stored path of
an application (no user-specified path), the stored segment for every pair
of consecutive base stations of the communication chain is the switch-id
sequence of the path delivered by the shortest-path call between their
network switches (nx.shortest_path with weight delay and method dijkstra,
modelled by the parameter sp), and the empty path when the origin equals
the target. -/
theorem C3_stored_segments (sp : NetworkSwitch → NetworkSwitch → List NetworkSwitch)
    (appId : Nat) (userBS : BaseStation) (hosts : List BaseStation)
    (st : UserCommState) (i : Nat) (origin target : BaseStation)
    (ho : (userBS :: hosts)[i]? = some origin)
    (ht : (userBS :: hosts)[i + 1]? = some target) :
    (dictGet (set_communication_path sp appId userBS hosts [] st).communication_paths
        (.str (toString appId)) [])[i]?
      = some (if origin = target then []
          else (sp origin.network_switch target.network_switch).map NetworkSwitch.id) := by
  have hpaths :
      dictGet (set_communication_path sp appId userBS hosts [] st).communication_paths
          (.str (toString appId)) []
        = chainSegments sp (userBS :: hosts) := by
    unfold set_communication_path
    have hif :
        (if dictContains st.communication_paths (.appRef appId) then
            { st with
              topology := releaseCommunicationPath st.topology appId
                (dictGet st.communication_paths (.str (toString appId)) []) }
          else st).communication_paths = st.communication_paths := by
      split <;> rfl
    simp only [List.length_nil, gt_iff_lt, lt_self_iff_false, if_false, hif]
    rw [scpLoop_paths]
    simp [dictGet_dictSet]
  rw [hpaths]
  exact chainSegments_get sp (userBS :: hosts) i origin target ho ht

/-- Witness for C3 at a concrete chain: base station 1 (switch 10) to base
station 2 (switch 20), with the shortest-path call returning the two-node
path; the stored segment is the switch ids [10, 20]. -/
theorem C3_stored_segments_witness :
    (dictGet (set_communication_path (fun a b => [a, b]) 3 ⟨1, ⟨10⟩⟩ [⟨2, ⟨20⟩⟩] []
        ⟨[], ⟨[], 0⟩⟩).communication_paths (.str (toString 3)) [])[0]?
      = some [10, 20] := by
  simpa using C3_stored_segments (fun a b => [a, b]) 3 ⟨1, ⟨10⟩⟩ [⟨2, ⟨20⟩⟩]
    ⟨[], ⟨[], 0⟩⟩ 0 ⟨1, ⟨10⟩⟩ ⟨2, ⟨20⟩⟩ rfl rfl

/-! ### PointOfInterest (embedded from point_of_interest.py) -/

def DAY_START_IN_MINUTES : Int := 5 * 60

def DAY_END_IN_MINUTES : Int := 23 * 60

def DAY_CYCLE_IN_MINUTES : Int := DAY_END_IN_MINUTES - DAY_START_IN_MINUTES

/-- Point of interest: identity, peak window bounds in minutes of day, and
the is_in_peak flag. -/
structure PointOfInterest where
  id : Nat
  peak_start : Int
  peak_end : Int
  is_in_peak : Bool
deriving DecidableEq

/-- Embedding of PointOfInterest.is_peak_time (source lines 82 to 84). -/
def is_peak_time (p : PointOfInterest) (current_step : Nat) : Bool :=
  let time_of_day_in_minutes : Int :=
    (current_step : Int) % DAY_CYCLE_IN_MINUTES + DAY_START_IN_MINUTES
  decide (p.peak_start ≤ time_of_day_in_minutes ∧ time_of_day_in_minutes < p.peak_end)

/-- Embedding of PointOfInterest.step (source lines 86 to 96), acting on
the object and on the class registry _instances_in_peak, which stores
references modelled by ids: entering the peak appends, leaving it removes
the first occurrence (Python list remove). -/
def poiStep (current_step : Nat) (p : PointOfInterest) (registry : List Nat) :
    PointOfInterest × List Nat :=
  if !p.is_in_peak && is_peak_time p current_step then
    ({ p with is_in_peak := true }, registry ++ [p.id])
  else if p.is_in_peak && !is_peak_time p current_step then
    ({ p with is_in_peak := false }, registry.erase p.id)
  else (p, registry)

/-- The class-level state: the instances list and the registry of
instances currently in peak. -/
structure PoiModelState where
  pois : List PointOfInterest
  instances_in_peak : List Nat

/-- Runs PointOfInterest.step on the instance at position k. -/
def poiStepAt (current_step : Nat) (st : PoiModelState) (k : Nat) : PoiModelState :=
  match st.pois[k]? with
  | none => st
  | some p =>
    let r := poiStep current_step p st.instances_in_peak
    { pois := st.pois.set k r.1, instances_in_peak := r.2 }

/-- Agreement of flags and registry: the registry has no duplicates,
membership of an instance id in the registry coincides with its
is_in_peak flag, and every registry entry is the id of an instance. -/
def poiInv (st : PoiModelState) : Prop :=
  st.instances_in_peak.Nodup
  ∧ (∀ (j : Nat) (p : PointOfInterest), st.pois[j]? = some p →
      (p.id ∈ st.instances_in_peak ↔ p.is_in_peak = true))
  ∧ (∀ i ∈ st.instances_in_peak,
      ∃ (j : Nat) (p : PointOfInterest), st.pois[j]? = some p ∧ p.id = i)

lemma is_peak_time_set_flag (p : PointOfInterest) (b : Bool) (cs : Nat) :
    is_peak_time { p with is_in_peak := b } cs = is_peak_time p cs := rfl

lemma poi_ids_inj (l : List PointOfInterest)
    (h : (l.map PointOfInterest.id).Nodup) {j k : Nat} {q p : PointOfInterest}
    (hq : l[j]? = some q) (hp : l[k]? = some p) (hid : q.id = p.id) : j = k := by
  have hj : j < l.length := (List.getElem?_eq_some_iff.mp hq).1
  have hmap : (l.map PointOfInterest.id)[j]? = (l.map PointOfInterest.id)[k]? := by
    simp [List.getElem?_map, hq, hp, hid]
  exact List.getElem?_inj (by simpa using hj) h hmap

lemma poi_witness_transfer (st : PoiModelState) (k : Nat)
    (p p2 : PointOfInterest) (hp : st.pois[k]? = some p) (hid : p2.id = p.id)
    (i : Nat)
    (h : ∃ (j : Nat) (q : PointOfInterest), st.pois[j]? = some q ∧ q.id = i) :
    ∃ (j : Nat) (q : PointOfInterest),
      (st.pois.set k p2)[j]? = some q ∧ q.id = i := by
  obtain ⟨j, q, hq, rfl⟩ := h
  by_cases hjk : j = k
  · subst hjk
    rw [hp] at hq
    obtain rfl := Option.some.inj hq
    have hk : j < st.pois.length := (List.getElem?_eq_some_iff.mp hp).1
    exact ⟨j, p2, List.getElem?_set_self hk, hid⟩
  · exact ⟨j, q, by rw [List.getElem?_set_ne (Ne.symm hjk)]; exact hq, rfl⟩

lemma poiInv_update (st : PoiModelState) (k : Nat) (p p2 : PointOfInterest)
    (reg2 : List Nat) (hp : st.pois[k]? = some p)
    (hids : (st.pois.map PointOfInterest.id).Nodup)
    (hmem : ∀ (j : Nat) (q : PointOfInterest), st.pois[j]? = some q →
      (q.id ∈ st.instances_in_peak ↔ q.is_in_peak = true))
    (hwit : ∀ i ∈ st.instances_in_peak,
      ∃ (j : Nat) (q : PointOfInterest), st.pois[j]? = some q ∧ q.id = i)
    (hid : p2.id = p.id) (hnodup2 : reg2.Nodup)
    (hself : p.id ∈ reg2 ↔ p2.is_in_peak = true)
    (hother : ∀ i, i ≠ p.id → (i ∈ reg2 ↔ i ∈ st.instances_in_peak))
    (hsub : ∀ i ∈ reg2, i ∈ st.instances_in_peak ∨ i = p.id) :
    poiInv ⟨st.pois.set k p2, reg2⟩ := by
  have hk : k < st.pois.length := (List.getElem?_eq_some_iff.mp hp).1
  refine ⟨hnodup2, ?_, ?_⟩
  · intro j q hq
    by_cases hjk : j = k
    · subst hjk
      rw [List.getElem?_set_self hk] at hq
      obtain rfl := Option.some.inj hq
      rw [hid]
      exact hself
    · rw [List.getElem?_set_ne (Ne.symm hjk)] at hq
      have hne : q.id ≠ p.id := fun h => hjk (poi_ids_inj st.pois hids hq hp h)
      rw [hother q.id hne]
      exact hmem j q hq
  · intro i hi
    rcases hsub i hi with hiold | rfl
    · exact poi_witness_transfer st k p p2 hp hid i (hwit i hiold)
    · exact ⟨k, p2, List.getElem?_set_self hk, hid⟩

/-- Claim C9: after PointOfInterest.step on any instance, the is_in_peak
flag of that instance equals is_peak_time at the current step (the window
test peak_start ≤ (step mod 1080) + 300 < peak_end), and the registry
_instances_in_peak contains exactly the instances whose flag is true,
provided flags and registry agreed before the call (and instance ids are
distinct, which stands in for distinct object references). -/
theorem C9_poi_step_sync (current_step k : Nat) (st : PoiModelState)
    (hids : (st.pois.map PointOfInterest.id).Nodup) (hinv : poiInv st)
    (p : PointOfInterest) (hp : st.pois[k]? = some p) :
    (∀ p2, (poiStepAt current_step st k).pois[k]? = some p2 →
        p2.is_in_peak = is_peak_time p2 current_step)
    ∧ poiInv (poiStepAt current_step st k)
    ∧ (∀ (q : PointOfInterest) (cs : Nat),
        is_peak_time q cs
          = decide (q.peak_start ≤ (cs : Int) % 1080 + 300
              ∧ (cs : Int) % 1080 + 300 < q.peak_end)) := by
  have hk : k < st.pois.length := (List.getElem?_eq_some_iff.mp hp).1
  obtain ⟨hnd, hmem, hwit⟩ := hinv
  have hflagreg := hmem k p hp
  cases hflag : p.is_in_peak with
  | false =>
    have hnotmem : p.id ∉ st.instances_in_peak := by
      rw [hflag] at hflagreg
      simpa using fun h => (hflagreg.mp h)
    cases hpeak : is_peak_time p current_step with
    | true =>
      have hstep : poiStepAt current_step st k
          = ⟨st.pois.set k { p with is_in_peak := true },
             st.instances_in_peak ++ [p.id]⟩ := by
        simp [poiStepAt, hp, poiStep, hflag, hpeak]
      refine ⟨?_, ?_, fun q cs => rfl⟩
      · intro p2 hp2
        rw [hstep] at hp2
        simp only [List.getElem?_set_self hk, Option.some.injEq] at hp2
        subst hp2
        rw [is_peak_time_set_flag, hpeak]
      · rw [hstep]
        refine poiInv_update st k p _ _ hp hids hmem hwit rfl ?_ ?_ ?_ ?_
        · rw [List.nodup_append]
          refine ⟨hnd, by simp, ?_⟩
          intro a ha hb
          simp only [List.mem_singleton] at hb
          subst hb
          exact hnotmem ha
        · simp
        · intro i hne
          simp [List.mem_append, hne]
        · intro i hi
          simpa using List.mem_append.mp hi
    | false =>
      have hstep : poiStepAt current_step st k
          = ⟨st.pois.set k p, st.instances_in_peak⟩ := by
        simp [poiStepAt, hp, poiStep, hflag, hpeak]
      refine ⟨?_, ?_, fun q cs => rfl⟩
      · intro p2 hp2
        rw [hstep] at hp2
        simp only [List.getElem?_set_self hk, Option.some.injEq] at hp2
        subst hp2
        rw [hflag, hpeak]
      · rw [hstep]
        refine poiInv_update st k p p _ hp hids hmem hwit rfl hnd ?_
          (fun i _ => Iff.rfl) (fun i hi => Or.inl hi)
        rw [hflag] at hflagreg ⊢
        exact hflagreg
  | true =>
    have hpmem : p.id ∈ st.instances_in_peak := by
      rw [hflag] at hflagreg
      exact hflagreg.mpr rfl
    cases hpeak : is_peak_time p current_step with
    | false =>
      have hstep : poiStepAt current_step st k
          = ⟨st.pois.set k { p with is_in_peak := false },
             st.instances_in_peak.erase p.id⟩ := by
        simp [poiStepAt, hp, poiStep, hflag, hpeak]
      refine ⟨?_, ?_, fun q cs => rfl⟩
      · intro p2 hp2
        rw [hstep] at hp2
        simp only [List.getElem?_set_self hk, Option.some.injEq] at hp2
        subst hp2
        rw [is_peak_time_set_flag, hpeak]
      · rw [hstep]
        refine poiInv_update st k p _ _ hp hids hmem hwit rfl
          (hnd.erase p.id) ?_ ?_ ?_
        · simp [List.Nodup.mem_erase_iff hnd]
        · intro i hne
          simp [List.Nodup.mem_erase_iff hnd, hne]
        · intro i hi
          exact Or.inl (List.mem_of_mem_erase hi)
    | true =>
      have hstep : poiStepAt current_step st k
          = ⟨st.pois.set k p, st.instances_in_peak⟩ := by
        simp [poiStepAt, hp, poiStep, hflag, hpeak]
      refine ⟨?_, ?_, fun q cs => rfl⟩
      · intro p2 hp2
        rw [hstep] at hp2
        simp only [List.getElem?_set_self hk, Option.some.injEq] at hp2
        subst hp2
        rw [hflag, hpeak]
      · rw [hstep]
        refine poiInv_update st k p p _ hp hids hmem hwit rfl hnd ?_
          (fun i _ => Iff.rfl) (fun i hi => Or.inl hi)
        rw [hflag] at hflagreg ⊢
        exact hflagreg

/-- Witness for C9 at a concrete step: a single point of interest with
peak window [280, 400) at step 0 (time of day 300) enters the peak, and
its updated flag agrees with is_peak_time. -/
theorem C9_poi_step_sync_witness :
    (⟨1, 280, 400, true⟩ : PointOfInterest).is_in_peak
      = is_peak_time ⟨1, 280, 400, true⟩ 0 :=
  (C9_poi_step_sync 0 0 ⟨[⟨1, 280, 400, false⟩], []⟩ (by simp)
    ⟨List.nodup_nil,
      fun j q hq => by
        cases j with
        | zero => simp at hq; subst hq; simp
        | succ j => simp at hq,
      fun i hi => by simp at hi⟩
    ⟨1, 280, 400, false⟩ rfl).1 ⟨1, 280, 400, true⟩ (by decide)

/-! ### Point-of-interest mobility (embedded from
point_of_interest_mobility.py); float arithmetic idealized as reals -/

/-- One waypoint of the point-of-interest mobility model (source lines 26
to 38): from current coordinates (x1, y1) toward the point of interest at
(x2, y2); when the Euclidean distance is at most the movement distance the
waypoint is the point of interest itself, otherwise it is the point at
ratio movement_distance / total_distance along the segment. -/
noncomputable def poiWaypoint (x1 y1 x2 y2 m : ℝ) : ℝ × ℝ :=
  let total_distance := Real.sqrt ((x2 - x1) ^ 2 + (y2 - y1) ^ 2)
  if total_distance ≤ m then (x2, y2)
  else
    let ratio := m / total_distance
    (x1 + (x2 - x1) * ratio, y1 + (y2 - y1) * ratio)

/-- The mobility path appended by point_of_interest_mobility when the user
has a point of interest: n_moves copies of the waypoint, all computed from
the same current coordinates, because the loop reads user.coordinates and
never updates it. -/
noncomputable def poiMobilityPath (x1 y1 x2 y2 m : ℝ) (n_moves : Nat) :
    List (ℝ × ℝ) :=
  List.replicate n_moves (poiWaypoint x1 y1 x2 y2 m)

lemma poiWaypoint_near (x1 y1 x2 y2 m : ℝ)
    (h : Real.sqrt ((x2 - x1) ^ 2 + (y2 - y1) ^ 2) ≤ m) :
    poiWaypoint x1 y1 x2 y2 m = (x2, y2) := by
  simp [poiWaypoint, h]

lemma poiWaypoint_far (x1 y1 x2 y2 m : ℝ)
    (h : ¬ Real.sqrt ((x2 - x1) ^ 2 + (y2 - y1) ^ 2) ≤ m) :
    poiWaypoint x1 y1 x2 y2 m
      = (x1 + (x2 - x1) * (m / Real.sqrt ((x2 - x1) ^ 2 + (y2 - y1) ^ 2)),
         y1 + (y2 - y1) * (m / Real.sqrt ((x2 - x1) ^ 2 + (y2 - y1) ^ 2))) := by
  simp [poiWaypoint, h]

/-- Claim C8: every waypoint appended by the point-of-interest mobility
model lies on the straight segment from the current coordinates toward the
point of interest; it equals the point of interest when the Euclidean
distance to it is at most the movement distance, and otherwise it lies at
Euclidean distance exactly the movement distance from the current
coordinates. -/
theorem C8_waypoint_on_segment (x1 y1 x2 y2 m : ℝ) (hm : 0 ≤ m) (n : Nat)
    (w : ℝ × ℝ) (hw : w ∈ poiMobilityPath x1 y1 x2 y2 m n) :
    (∃ t : ℝ, 0 ≤ t ∧ t ≤ 1
        ∧ w = (x1 + (x2 - x1) * t, y1 + (y2 - y1) * t))
    ∧ (Real.sqrt ((x2 - x1) ^ 2 + (y2 - y1) ^ 2) ≤ m → w = (x2, y2))
    ∧ (m < Real.sqrt ((x2 - x1) ^ 2 + (y2 - y1) ^ 2) →
        Real.sqrt ((w.1 - x1) ^ 2 + (w.2 - y1) ^ 2) = m) := by
  have hwp : w = poiWaypoint x1 y1 x2 y2 m :=
    (List.eq_of_mem_replicate (by simpa [poiMobilityPath] using hw))
  subst hwp
  have hS : (0 : ℝ) ≤ (x2 - x1) ^ 2 + (y2 - y1) ^ 2 := by positivity
  refine ⟨?_, ?_, ?_⟩
  · by_cases h : Real.sqrt ((x2 - x1) ^ 2 + (y2 - y1) ^ 2) ≤ m
    · refine ⟨1, by norm_num, le_refl 1, ?_⟩
      rw [poiWaypoint_near x1 y1 x2 y2 m h, Prod.ext_iff]
      constructor <;> dsimp only <;> ring
    · have hd : 0 < Real.sqrt ((x2 - x1) ^ 2 + (y2 - y1) ^ 2) :=
        lt_of_le_of_lt hm (lt_of_not_le h)
      refine ⟨m / Real.sqrt ((x2 - x1) ^ 2 + (y2 - y1) ^ 2),
        div_nonneg hm (le_of_lt hd),
        le_of_lt ((div_lt_one hd).mpr (lt_of_not_le h)), ?_⟩
      rw [poiWaypoint_far x1 y1 x2 y2 m h]
  · intro h
    exact poiWaypoint_near x1 y1 x2 y2 m h
  · intro hlt
    have h : ¬ Real.sqrt ((x2 - x1) ^ 2 + (y2 - y1) ^ 2) ≤ m := not_le.mpr hlt
    have hd : 0 < Real.sqrt ((x2 - x1) ^ 2 + (y2 - y1) ^ 2) :=
      lt_of_le_of_lt hm hlt
    have hsq : Real.sqrt ((x2 - x1) ^ 2 + (y2 - y1) ^ 2) ^ 2
        = (x2 - x1) ^ 2 + (y2 - y1) ^ 2 := Real.sq_sqrt hS
    have hS_ne : (x2 - x1) ^ 2 + (y2 - y1) ^ 2 ≠ 0 := by
      intro h0
      rw [h0, Real.sqrt_zero] at hd
      exact lt_irrefl 0 hd
    rw [poiWaypoint_far x1 y1 x2 y2 m h]
    dsimp only
    have hsimp :
        (x1 + (x2 - x1) * (m / Real.sqrt ((x2 - x1) ^ 2 + (y2 - y1) ^ 2)) - x1) ^ 2
          + (y1 + (y2 - y1) * (m / Real.sqrt ((x2 - x1) ^ 2 + (y2 - y1) ^ 2)) - y1) ^ 2
        = m ^ 2 := by
      have hexp :
          (x1 + (x2 - x1) * (m / Real.sqrt ((x2 - x1) ^ 2 + (y2 - y1) ^ 2)) - x1) ^ 2
            + (y1 + (y2 - y1) * (m / Real.sqrt ((x2 - x1) ^ 2 + (y2 - y1) ^ 2)) - y1) ^ 2
          = (m / Real.sqrt ((x2 - x1) ^ 2 + (y2 - y1) ^ 2)) ^ 2
              * ((x2 - x1) ^ 2 + (y2 - y1) ^ 2) := by
        ring
      rw [hexp, div_pow, hsq, div_mul_eq_mul_div, mul_div_assoc,
        div_self hS_ne, mul_one]
    rw [hsimp, Real.sqrt_sq hm]

/-- Witness for C8: current coordinates (0, 0), point of interest (3, 4)
at distance 5, movement distance 1: the appended waypoint is at distance
exactly 1 from the current coordinates. -/
theorem C8_waypoint_on_segment_witness :
    Real.sqrt (((poiWaypoint 0 0 3 4 1).1 - 0) ^ 2
        + ((poiWaypoint 0 0 3 4 1).2 - 0) ^ 2) = 1 := by
  have h5 : Real.sqrt (((3 : ℝ) - 0) ^ 2 + (4 - 0) ^ 2) = 5 := by
    rw [show ((3 : ℝ) - 0) ^ 2 + (4 - 0) ^ 2 = 5 ^ 2 by norm_num,
      Real.sqrt_sq (by norm_num)]
  exact (C8_waypoint_on_segment 0 0 3 4 1 (by norm_num) 1
      (poiWaypoint 0 0 3 4 1) (by simp [poiMobilityPath])).2.2
    (by rw [h5]; norm_num)

/-! ### Hexagonal-mesh topology builder (embedded from the
dataset-generator network topology module) -/

/-- Embedding of find_neighbors_hexagonal_grid: the six hexagonal
candidate positions around the current position, kept when both
coordinates are nonnegative and the position is on the map. -/
def find_neighbors_hexagonal_grid (map_coordinates : List (Int × Int))
    (current_position : Int × Int) : List (Int × Int) :=
  let x := current_position.1
  let y := current_position.2
  let candidates := [(x - 2, y), (x - 1, y + 1), (x + 1, y + 1),
    (x + 2, y), (x + 1, y - 1), (x - 1, y - 1)]
  candidates.filter
    (fun nb => 0 ≤ nb.1 ∧ 0 ≤ nb.2 ∧ nb ∈ map_coordinates)

/-- Adjacency state built by the topology builder: directed adjacency
entries (node, neighbor, link id) standing for topology adj with the
NetworkLink object stored at both directions, plus the id of the next
link object to be created (object identity of NetworkLink instances). -/
structure TopoBuildState where
  adj : List ((Int × Int) × (Int × Int) × Nat)
  nextLinkId : Nat

/-- One iteration of the inner loop of the builder (source lines 41 to
59): when the topology does not have the edge yet, one NetworkLink object
is created and stored as the adjacency entry of both directions. -/
def addLinkStep (st : TopoBuildState) (node nb : Int × Int) : TopoBuildState :=
  if st.adj.any (fun e => e.1 = node ∧ e.2.1 = nb) then st
  else
    { adj := st.adj ++ [(node, nb, st.nextLinkId), (nb, node, st.nextLinkId)],
      nextLinkId := st.nextLinkId + 1 }

/-- The outer loop of the builder (source lines 34 to 59): for every node,
links toward each of its hexagonal neighbors are added. -/
def buildMesh (network_nodes : List (Int × Int)) : TopoBuildState :=
  network_nodes.foldl
    (fun st node =>
      (find_neighbors_hexagonal_grid network_nodes node).foldl
        (fun st2 nb => addLinkStep st2 node nb) st)
    ⟨[], 0⟩

/-- Builder invariant: adjacency entries come in symmetric pairs sharing
one link id, each ordered pair carries at most one link id, and every
stored id is below the creation counter. -/
def meshInv (st : TopoBuildState) : Prop :=
  (∀ a b i, (a, b, i) ∈ st.adj → (b, a, i) ∈ st.adj)
  ∧ (∀ a b i j, (a, b, i) ∈ st.adj → (a, b, j) ∈ st.adj → i = j)
  ∧ (∀ a b i, (a, b, i) ∈ st.adj → i < st.nextLinkId)

lemma foldl_preserves {α β : Type} (P : α → Prop) (f : α → β → α)
    (h : ∀ a b, P a → P (f a b)) :
    ∀ (l : List β) (a : α), P a → P (l.foldl f a) := by
  intro l
  induction l with
  | nil => intro a ha; exact ha
  | cons b t ih => intro a ha; exact ih (f a b) (h a b ha)

lemma triple_eq {α β γ : Type} {a c : α} {b d : β} {i j : γ}
    (h : (a, b, i) = (c, d, j)) : a = c ∧ b = d ∧ i = j :=
  ⟨congrArg Prod.fst h, congrArg (fun p => p.2.1) h, congrArg (fun p => p.2.2) h⟩

lemma addLinkStep_preserves (st : TopoBuildState) (node nb : Int × Int)
    (h : meshInv st) : meshInv (addLinkStep st node nb) := by
  obtain ⟨hsym, huniq, hfresh⟩ := h
  by_cases hedge : st.adj.any (fun e => e.1 = node ∧ e.2.1 = nb) = true
  · unfold addLinkStep
    rw [if_pos hedge]
    exact ⟨hsym, huniq, hfresh⟩
  · have hno : ∀ i, (node, nb, i) ∉ st.adj := fun i hi =>
      hedge (List.any_eq_true.mpr ⟨(node, nb, i), hi, by simp⟩)
    have hno2 : ∀ i, (nb, node, i) ∉ st.adj := fun i hi => hno i (hsym nb node i hi)
    have hnew : ∀ (a b : Int × Int) (i : Nat),
        (a, b, i) ∈ ([(node, nb, st.nextLinkId), (nb, node, st.nextLinkId)] :
            List ((Int × Int) × (Int × Int) × Nat)) →
        ((a = node ∧ b = nb) ∨ (a = nb ∧ b = node)) ∧ i = st.nextLinkId := by
      intro a b i hi
      rcases List.mem_cons.mp hi with h2 | hi2
      · obtain ⟨ha, hb, hid⟩ := triple_eq h2
        exact ⟨Or.inl ⟨ha, hb⟩, hid⟩
      · obtain ⟨ha, hb, hid⟩ := triple_eq (List.mem_singleton.mp hi2)
        exact ⟨Or.inr ⟨ha, hb⟩, hid⟩
    unfold addLinkStep
    rw [if_neg hedge]
    refine ⟨?_, ?_, ?_⟩
    · intro a b i hi
      rcases List.mem_append.mp hi with hi1 | hi2
      · exact List.mem_append_left _ (hsym a b i hi1)
      · obtain ⟨hab, rfl⟩ := hnew a b i hi2
        rcases hab with ⟨rfl, rfl⟩ | ⟨rfl, rfl⟩
        · exact List.mem_append_right _ (by simp)
        · exact List.mem_append_right _ (by simp)
    · intro a b i j hi hj
      rcases List.mem_append.mp hi with hi1 | hi2 <;>
        rcases List.mem_append.mp hj with hj1 | hj2
      · exact huniq a b i j hi1 hj1
      · exfalso
        obtain ⟨hab, _⟩ := hnew a b j hj2
        rcases hab with ⟨rfl, rfl⟩ | ⟨rfl, rfl⟩
        · exact hno i hi1
        · exact hno2 i hi1
      · exfalso
        obtain ⟨hab, _⟩ := hnew a b i hi2
        rcases hab with ⟨rfl, rfl⟩ | ⟨rfl, rfl⟩
        · exact hno j hj1
        · exact hno2 j hj1
      · obtain ⟨_, rfl⟩ := hnew a b i hi2
        obtain ⟨_, hj3⟩ := hnew a b j hj2
        exact hj3.symm
    · intro a b i hi
      rcases List.mem_append.mp hi with hi1 | hi2
      · exact Nat.lt_succ_of_lt (hfresh a b i hi1)
      · obtain ⟨_, rfl⟩ := hnew a b i hi2
        exact Nat.lt_succ_self _

lemma buildMesh_inv (nodes : List (Int × Int)) : meshInv (buildMesh nodes) := by
  unfold buildMesh
  refine foldl_preserves meshInv _ ?_ nodes ⟨[], 0⟩ ?_
  · intro st node hst
    exact foldl_preserves meshInv _
      (fun st2 nb h2 => addLinkStep_preserves st2 node nb h2) _ st hst
  · exact ⟨fun a b i h => ((List.not_mem_nil _) h).elim,
      fun a b i j h _ => ((List.not_mem_nil _) h).elim,
      fun a b i h => ((List.not_mem_nil _) h).elim⟩

/-- Claim C7: in the topology built by the hexagonal-mesh builder, every
adjacency entry has its mirror entry carrying the same link object (same
link id in both directions), and each pair of neighboring nodes carries at
most one link object, in whichever direction the two entries are read. -/
theorem C7_links_undirected_unique (nodes : List (Int × Int))
    (a b : Int × Int) (i j : Nat) :
    ((a, b, i) ∈ (buildMesh nodes).adj → (b, a, i) ∈ (buildMesh nodes).adj)
    ∧ ((a, b, i) ∈ (buildMesh nodes).adj →
        (a, b, j) ∈ (buildMesh nodes).adj → i = j)
    ∧ ((a, b, i) ∈ (buildMesh nodes).adj →
        (b, a, j) ∈ (buildMesh nodes).adj → i = j) := by
  obtain ⟨hsym, huniq, _⟩ := buildMesh_inv nodes
  refine ⟨hsym a b i, huniq a b i j, ?_⟩
  intro hi hj
  exact huniq a b i j hi (hsym b a j hj)

/-- Witness for C7 on a two-node map: the link created from (0, 0) toward
its hexagonal neighbor (2, 0) is stored in the reverse direction as well,
with the same link id. -/
theorem C7_links_undirected_unique_witness :
    ((2, 0), (0, 0), 0) ∈ (buildMesh [(0, 0), (2, 0)]).adj :=
  (C7_links_undirected_unique [(0, 0), (2, 0)] (0, 0) (2, 0) 0 0).1 (by decide)

/-! ### Link-specification application of the mesh builder (source lines
63 to 78) -/

/-- One user-provided link specification: the optional number_of_objects
key and the remaining attribute entries that get copied onto links. -/
structure LinkSpec (α : Type) where
  number_of_objects : Option Nat
  attrs : List (String × α)

/-- The sum computed on the elif line of the builder: adding up the
number_of_objects values, with the missing-key error (KeyError) modelled
as none. -/
def sumCounts {α : Type} (specs : List (LinkSpec α)) : Option Nat :=
  specs.foldr
    (fun s acc =>
      match s.number_of_objects, acc with
      | some n, some m => some (n + m)
      | _, _ => none)
    (some 0)

/-- The distribution loop of the builder: each specification consumes
number_of_objects links from the shuffled link sequence (random.sample
permutation) and every consumed link receives the attribute entries of
that specification; running past the end of the sequence is the
StopIteration failure of the generator. -/
def distributeSpecs {α : Type} : List (LinkSpec α) → List Nat →
    Except String (List (Nat × List (String × α)))
  | [], _ => .ok []
  | s :: rest, links =>
    match s.number_of_objects with
    | none => .error "KeyError: number_of_objects"
    | some n =>
      if n ≤ links.length then
        (distributeSpecs rest (links.drop n)).map
          (fun tail => (links.take n).map (fun l => (l, s.attrs)) ++ tail)
      else .error "StopIteration"

/-- Embedding of the specification-checking and application part of the
mesh builder: a single specification without number_of_objects receives
the edge count and is applied to every link; otherwise the sum of the
counts must equal the number of edges or an exception is raised; then the
specifications are distributed over the shuffled links. -/
def applyLinkSpecs {α : Type} (numEdges : Nat) (specs : List (LinkSpec α))
    (shuffled : List Nat) : Except String (List (Nat × List (String × α))) :=
  match specs with
  | [s] =>
    match s.number_of_objects with
    | none =>
      distributeSpecs [{ s with number_of_objects := some numEdges }] shuffled
    | some n =>
      if n ≠ numEdges then .error "spec count mismatch"
      else distributeSpecs [s] shuffled
  | _ =>
    match sumCounts specs with
    | none => .error "KeyError: number_of_objects"
    | some total =>
      if total ≠ numEdges then .error "spec count mismatch"
      else distributeSpecs specs shuffled

lemma take_add_split {α : Type} :
    ∀ (l : List α) (n m : Nat), l.take (n + m) = l.take n ++ (l.drop n).take m := by
  intro l
  induction l with
  | nil => intro n m; simp
  | cons a t ih =>
    intro n m
    cases n with
    | zero => simp
    | succ n =>
      rw [Nat.succ_add, List.take_succ_cons, List.take_succ_cons,
        List.drop_succ_cons, ih n m, List.cons_append]

lemma distributeSpecs_fst {α : Type} :
    ∀ (specs : List (LinkSpec α)) (links : List Nat)
      (result : List (Nat × List (String × α))),
      distributeSpecs specs links = .ok result →
      ∃ total, sumCounts specs = some total
        ∧ result.map Prod.fst = links.take total := by
  intro specs
  induction specs with
  | nil =>
    intro links result h
    obtain rfl := Except.ok.inj h
    exact ⟨0, rfl, by simp⟩
  | cons s rest ih =>
    intro links result h
    simp only [distributeSpecs] at h
    cases hcount : s.number_of_objects with
    | none =>
      simp only [hcount] at h
      exact Except.noConfusion h
    | some n =>
      simp only [hcount] at h
      by_cases hle : n ≤ links.length
      · rw [if_pos hle] at h
        cases hrest : distributeSpecs rest (links.drop n) with
        | error e =>
          rw [hrest] at h
          exact Except.noConfusion h
        | ok tail =>
          rw [hrest] at h
          simp only [Except.map] at h
          obtain rfl := Except.ok.inj h
          obtain ⟨total2, hsum, hfst⟩ := ih (links.drop n) tail hrest
          refine ⟨n + total2, ?_, ?_⟩
          · have hstep : sumCounts (s :: rest)
                = match s.number_of_objects, sumCounts rest with
                  | some n, some m => some (n + m)
                  | _, _ => none := rfl
            rw [hstep, hcount, hsum]
          · have hmap : ∀ ls : List Nat,
                (ls.map (fun l => (l, s.attrs))).map Prod.fst = ls := by
              intro ls
              induction ls with
              | nil => rfl
              | cons a t iht => simp [iht]
            rw [List.map_append, hfst, take_add_split links n total2, hmap]
      · rw [if_neg hle] at h
        exact Except.noConfusion h

lemma filter_fst_length_one {β : Type} :
    ∀ (result : List (Nat × β)),
      (result.map Prod.fst).Nodup → ∀ l ∈ result.map Prod.fst,
      (result.filter (fun r => r.1 = l)).length = 1 := by
  intro result
  induction result with
  | nil => intro _ l hl; simp at hl
  | cons r rest ih =>
    intro hnd l hl
    simp only [List.map_cons, List.nodup_cons] at hnd
    simp only [List.map_cons] at hl
    by_cases h : r.1 = l
    · rw [List.filter_cons_of_pos (by simp [h])]
      have hrest_nil : rest.filter (fun x => x.1 = l) = [] := by
        rw [List.filter_eq_nil_iff]
        intro x hx
        simp only [decide_eq_true_eq]
        intro hxl
        exact hnd.1 (by
          rw [h, ← hxl]
          exact List.mem_map_of_mem Prod.fst hx)
      simp [hrest_nil]
    · rw [List.filter_cons_of_neg (by simp [h])]
      rcases List.mem_cons.mp hl with h2 | h2
      · exact absurd h2.symm h
      · exact ih hnd.2 l h2

/-- Claim C10: the builder raises an exception whenever the
specifications all carry number_of_objects (more than one entry, or one
entry with the key) and the counts sum to something other than the number
of edges; a single specification without the key is applied to every
link; and on success every link receives the attribute entries of exactly
one specification. -/
theorem C10_link_spec_application {α : Type} (numEdges : Nat)
    (specs : List (LinkSpec α)) (shuffled : List Nat)
    (hlen : shuffled.length = numEdges) (hnd : shuffled.Nodup) :
    (∀ total, sumCounts specs = some total → total ≠ numEdges →
        applyLinkSpecs numEdges specs shuffled = .error "spec count mismatch")
    ∧ (∀ s : LinkSpec α, s.number_of_objects = none →
        applyLinkSpecs numEdges [s] shuffled
          = .ok (shuffled.map (fun l => (l, s.attrs))))
    ∧ (∀ result, applyLinkSpecs numEdges specs shuffled = .ok result →
        result.map Prod.fst = shuffled
        ∧ ∀ l ∈ shuffled, (result.filter (fun r => r.1 = l)).length = 1) := by
  have htake : shuffled.take numEdges = shuffled := by
    rw [← hlen, List.take_length]
  refine ⟨?_, ?_, ?_⟩
  · intro total hsum hne
    rcases specs with _ | ⟨s, rest⟩
    · have h0 : total = 0 := by
        have : (some 0 : Option Nat) = some total := hsum
        simpa using this.symm
      subst h0
      simp [applyLinkSpecs, sumCounts, hne]
    · rcases rest with _ | ⟨s2, rest2⟩
      · cases hcount : s.number_of_objects with
        | none => simp [sumCounts, hcount] at hsum
        | some n =>
          have hn : n = total := by
            have hstep : sumCounts [s]
                = match s.number_of_objects, (some 0 : Option Nat) with
                  | some n, some m => some (n + m)
                  | _, _ => none := rfl
            rw [hstep, hcount] at hsum
            simpa using hsum
          subst hn
          simp [applyLinkSpecs, hcount, hne]
      · simp [applyLinkSpecs, hsum, hne]
  · intro s hs
    simp only [applyLinkSpecs, hs, distributeSpecs]
    rw [if_pos (le_of_eq hlen.symm)]
    simp [distributeSpecs, Except.map, htake]
  · intro result hres
    have hdist : ∃ specs2 : List (LinkSpec α),
        distributeSpecs specs2 shuffled = .ok result
          ∧ sumCounts specs2 = some numEdges := by
      rcases specs with _ | ⟨s, rest⟩
      · by_cases h0 : (0 : Nat) = numEdges
        · refine ⟨[], ?_, by simp [sumCounts, h0]⟩
          simpa [applyLinkSpecs, sumCounts, ← h0] using hres
        · simp [applyLinkSpecs, sumCounts, h0] at hres
      · rcases rest with _ | ⟨s2, rest2⟩
        · cases hcount : s.number_of_objects with
          | none =>
            simp only [applyLinkSpecs, hcount] at hres
            exact ⟨[{ s with number_of_objects := some numEdges }], hres,
              by simp [sumCounts]⟩
          | some n =>
            simp only [applyLinkSpecs, hcount] at hres
            by_cases hn : n = numEdges
            · subst hn
              refine ⟨[s], ?_, by simp [sumCounts, hcount]⟩
              simpa using hres
            · simp [hn] at hres
        · cases hsum : sumCounts (s :: s2 :: rest2) with
          | none =>
            simp only [applyLinkSpecs, hsum] at hres
            exact Except.noConfusion hres
          | some total =>
            by_cases ht : total = numEdges
            · subst ht
              refine ⟨s :: s2 :: rest2, ?_, hsum⟩
              simp only [applyLinkSpecs, hsum] at hres
              simpa using hres
            · simp [applyLinkSpecs, hsum, ht] at hres
    obtain ⟨specs2, hok, hsum2⟩ := hdist
    obtain ⟨total, hsum3, hfst⟩ := distributeSpecs_fst specs2 shuffled result hok
    have htot : total = numEdges := by
      rw [hsum2] at hsum3
      exact (Option.some.inj hsum3).symm
    rw [htot, htake] at hfst
    refine ⟨hfst, ?_⟩
    intro l hl
    exact filter_fst_length_one result (hfst ▸ hnd) l (hfst ▸ hl)

/-- Witness for C10: one specification without number_of_objects on a
two-edge topology is applied to both links. -/
theorem C10_link_spec_application_witness :
    applyLinkSpecs 2
        [({ number_of_objects := none, attrs := [("bandwidth", 12)] } : LinkSpec Nat)]
        [4, 9]
      = .ok [(4, [("bandwidth", 12)]), (9, [("bandwidth", 12)])] := by
  simpa using
    (C10_link_spec_application 2
        [({ number_of_objects := none, attrs := [("bandwidth", 12)] } : LinkSpec Nat)]
        [4, 9] rfl (by decide)).2.1
      ⟨none, [("bandwidth", 12)]⟩ rfl

end EdgeSimPy
